import Mathlib

/-!
# Verification of the blobcrypt convergent blob codec and backup manifest

A shallow embedding of the Go sources of `home-orbit/go-blob-encryption`.
Bytes are modelled as `Nat` values and byte strings as `List Nat`; Go strings
are modelled as their byte sequences.  The external cryptographic primitives
(`crypto/sha256`, `crypto/sha512`'s HMAC, and the AES-256-CTR keystream from
`crypto/aes` + `crypto/cipher`) are not part of this repository; they are
modelled as parameters gathered in a `Crypto` structure, constrained only by
their documented output lengths.  Everything layered on top of them —
`shaSlice256`, `ComputeKey`, `NewWriter`/`Writer.Encrypt`, `CheckKey`,
`NewReader`/`Reader.Decrypt`, `DecryptAndCheckKey`, and the backup
`Manifest` operations `Diff`, `Commit` and `GarbageCollectable` — is
translated from the repository's source.
-/

set_option autoImplicit false

namespace Blobcrypt

/-! ## External cryptographic primitives (parameters)

`crypto/cipher.NewCTR` produces a byte keystream fully determined by the AES
key and the 16-byte IV; `XORKeyStream` XORs source bytes with successive
keystream bytes.  We model the keystream as a function from the byte index to
the keystream byte.  SHA-256 always returns 32 bytes and HMAC-SHA-512 always
returns 64 bytes; those are the only facts about the primitives the code
relies on. -/

structure Crypto where
  sha256 : List Nat → List Nat
  hmacSha512 : List Nat → List Nat → List Nat
  keystream : List Nat → List Nat → Nat → Nat
  sha256_len : ∀ x, (sha256 x).length = 32
  hmac_len : ∀ k m, (hmacSha512 k m).length = 64

/-- A concrete (non-cryptographic) instance of the primitive bundle, used to
evaluate the model on concrete inputs. -/
def toyCrypto : Crypto where
  sha256 := fun x => (List.range 32).map (fun i => (x.length + x.sum + i) % 256)
  hmacSha512 := fun k m => (List.range 64).map (fun i => (k.sum + 2 * m.sum + m.length + i) % 256)
  keystream := fun key iv n => (key.sum + iv.sum + n) % 256
  sha256_len := by intro x; simp
  hmac_len := by intro k m; simp

/-- utils.go: `shaSlice256` hashes a byte slice with SHA-256. -/
def shaSlice256 (C : Crypto) (input : List Nat) : List Nat :=
  C.sha256 input

/-! ## Byte sources

Seekable inputs (`io.ReadSeeker` over in-memory bytes, as in the repository's
tests which use `bytes.Reader`) are a byte list plus a read position. -/

structure ByteSource where
  data : List Nat
  pos : Nat
  deriving DecidableEq, Repr

/-! ## CTR transformation and the CipherStream chunking

`CipherStream.Stream` (cipherstream.go) reads the source in buffers of at
most 16384 bytes, enciphers each buffer in place with `XORKeyStream`, and
emits the buffers in source order.  The consumer concatenates them.  The
keystream position advances across chunk boundaries, which `ctrXorFrom`
models with an explicit starting index. -/

def cipherStreamBufferSize : Nat := 16384

/-- XOR a byte list against the keystream `ks`, starting at stream index `i`.
This is the aggregate effect of `cipher.Stream.XORKeyStream`. -/
def ctrXorFrom (ks : Nat → Nat) : Nat → List Nat → List Nat
  | _, [] => []
  | i, b :: bs => (b ^^^ ks i) :: ctrXorFrom ks (i + 1) bs

/-- The chunks emitted on the channel by `CipherStream.Stream`, for a source
whose unread content is `src` and whose keystream is already at index `i`. -/
def cipherChunks (ks : Nat → Nat) (i : Nat) (src : List Nat) : List (List Nat) :=
  if src = [] then []
  else
    ctrXorFrom ks i (src.take cipherStreamBufferSize) ::
      cipherChunks ks (i + (src.take cipherStreamBufferSize).length)
        (src.drop cipherStreamBufferSize)
termination_by src.length
decreasing_by
  simp only [List.length_drop, cipherStreamBufferSize]
  have h : src.length ≠ 0 := by
    intro h0
    exact (by assumption : ¬ src = []) (List.eq_nil_of_length_eq_zero h0)
  omega

/-- Concatenation of the emitted chunks, as performed by the consumer loop. -/
def joinl (chunks : List (List Nat)) : List Nat :=
  chunks.foldl (· ++ ·) []

/-! ## Key computation (part of the package root, `ComputeKey`) -/

/-- `KeySize = sha256.Size`. -/
def KeySize : Nat := 32

/-- `ComputeKey(source, cs)`: SHA-256 over the convergence secret followed by
the source's remaining content; rewinds the source to offset 0. -/
def ComputeKey (C : Crypto) (source : ByteSource) (cs : List Nat) :
    List Nat × ByteSource :=
  let hash := C.sha256 (cs ++ source.data.drop source.pos)
  (hash, { data := source.data, pos := 0 })

/-! ## Writer (writer.go) -/

structure Writer where
  Source : ByteSource
  Key : List Nat
  deriving DecidableEq, Repr

/-- `NewWriter` rejects keys whose length is not `sha256.Size` (32). -/
def NewWriter (source : ByteSource) (key : List Nat) : Except String Writer :=
  if key.length ≠ 32 then .error "Key size is incorrect"
  else .ok { Source := source, Key := key }

/-- `aes.NewCipher` accepts exactly 16-, 24- and 32-byte keys. -/
def aesKeyOk (n : Nat) : Bool := n == 16 || n == 24 || n == 32

/-- `Writer.Encrypt`: derive `iv = SHA-256(key)` and `hmacKey = SHA-256(iv)`,
stream the source through AES-CTR (keyed by the writer's key with the first
16 bytes of `iv`), write each enciphered chunk to the output while feeding it
to HMAC-SHA-512, then append the 64-byte HMAC.  Returns the pair of the
bytes written to the output and the returned HMAC value. -/
def Writer.Encrypt (C : Crypto) (w : Writer) :
    Except String (List Nat × List Nat) :=
  if ¬ aesKeyOk w.Key.length then .error "crypto/aes: invalid key size"
  else
    let iv := shaSlice256 C w.Key
    let hmacKey := shaSlice256 C iv
    let ks := C.keystream w.Key (iv.take 16)
    let ciphertext := joinl (cipherChunks ks 0 (w.Source.data.drop w.Source.pos))
    let hmacFinal := C.hmacSha512 hmacKey ciphertext
    .ok (ciphertext ++ hmacFinal, hmacFinal)

/-! ## CheckKey and the Reader (part_007 / reader.go) -/

/-- `CheckKey` seeks to 64 bytes before the end (an error for sources shorter
than 64 bytes), reads the embedded HMAC, rewinds, HMACs the body under
`SHA-256(SHA-256(key))` and compares.  On success it returns the trailer
offset with the source rewound to offset 0; on mismatch it returns the error
`File signature invalid (HMAC)`. -/
def CheckKey (C : Crypto) (source : ByteSource) (key : List Nat) :
    Except String (Nat × ByteSource) :=
  let iv := shaSlice256 C key
  let hmacKey := shaSlice256 C iv
  if source.data.length < 64 then .error "bytes.Reader.Seek: negative position"
  else
    let trailerPos := source.data.length - 64
    let embeddedHMAC := (source.data.drop trailerPos).take 64
    let bodyHMAC := C.hmacSha512 hmacKey (source.data.take trailerPos)
    if bodyHMAC = embeddedHMAC then .ok (trailerPos, { data := source.data, pos := 0 })
    else .error "File signature invalid (HMAC)"

/-- A Reader's source is the `io.LimitReader`-restricted byte stream. -/
structure Reader where
  Source : List Nat
  Key : List Nat
  deriving DecidableEq, Repr

/-- `NewReader` authenticates via `CheckKey`; on success the reader's source
is the body region `[0, offset)` of the (rewound) ciphertext. -/
def NewReader (C : Crypto) (source : ByteSource) (key : List Nat) :
    Except String Reader :=
  match CheckKey C source key with
  | .error e => .error e
  | .ok (offset, rewound) =>
      .ok { Source := (rewound.data.drop rewound.pos).take offset, Key := key }

/-- `Reader.Decrypt`: an identical CTR configuration to the writer, streamed
through `CipherStream` and written to the destination chunk by chunk. -/
def Reader.Decrypt (C : Crypto) (r : Reader) : Except String (List Nat) :=
  if ¬ aesKeyOk r.Key.length then .error "crypto/aes: invalid key size"
  else
    let iv := shaSlice256 C r.Key
    let ks := C.keystream r.Key (iv.take 16)
    .ok (joinl (cipherChunks ks 0 r.Source))

/-- Modelled from the spec: the constant `HMACSize` is referenced by
reader.go and the backup CLI but its declaration is not among the provided
sources; the spec fixes the trailer at 64 bytes (the HMAC-SHA-512 output
size), so `HMACSize = 64`. -/
def HMACSize : Nat := 64

/-- `DecryptAndCheckKey` (non-seekable variant): a `TailExcludingReader`
withholds the final `HMACSize` bytes (or the whole input when it is shorter
than that); the emitted body bytes are teed into HMAC-SHA-512 and decrypted
by a `Reader` into a buffer.  The withheld tail is compared against the
computed HMAC; on mismatch the buffer is erased and `HMACInvalid`
(errors.go: the string `HMAC Invalid`) is returned with a nil reader, which
the `Except.error` result models: no plaintext accompanies the error. -/
def DecryptAndCheckKey (C : Crypto) (source : List Nat) (key : List Nat) :
    Except String (List Nat) :=
  let iv := shaSlice256 C key
  let hmacKey := shaSlice256 C iv
  let bodyLen := source.length - HMACSize
  let body := source.take bodyLen
  let tailBytes := source.drop bodyLen
  match Reader.Decrypt C { Source := body, Key := key } with
  | .error e => .error e
  | .ok buf =>
      let calculatedHMAC := C.hmacSha512 hmacKey body
      if tailBytes = calculatedHMAC then .ok buf
      else .error "HMAC Invalid"

/-! ## Backup manifest (cli/blobcrypt-backup/keystore.go)

`LocalHash` is a 32-byte array and `HMAC512` a 64-byte array; both are
modelled as byte lists.  Go's `map[LocalHash]ManifestEntry` is modelled as
an association list of (key, entry) pairs; Go map iteration order is
unspecified, so only membership-level facts are stated about results that
depend on it.  Go paths are byte strings; `strings.HasPrefix`/`HasSuffix`
become `List.isPrefixOf`/`List.isSuffixOf` and `/` is byte 47. -/

structure ManifestEntry where
  LocalHash : List Nat
  Path : List Nat
  Key : List Nat
  HMAC : List Nat
  deriving DecidableEq, Repr

structure ManifestDiff where
  Change : List ManifestEntry
  Remove : List ManifestEntry
  deriving DecidableEq, Repr

/-- The manifest's `Entries` map (the `Header` field is an empty struct
reserved for future use and is omitted). -/
structure Manifest where
  Entries : List (List Nat × ManifestEntry)
  deriving DecidableEq, Repr

/-- Go map assignment `m[key] = v`: any pair under `key` is replaced.  The
model re-adds the pair at the end; iteration order of Go maps is unspecified
so any consistent placement is admissible. -/
def mapInsert (m : List (List Nat × ManifestEntry)) (key : List Nat)
    (v : ManifestEntry) : List (List Nat × ManifestEntry) :=
  m.filter (fun p => ¬ p.1 = key) ++ [(key, v)]

/-- Go map `delete(m, key)`. -/
def mapErase (m : List (List Nat × ManifestEntry)) (key : List Nat) :
    List (List Nat × ManifestEntry) :=
  m.filter (fun p => ¬ p.1 = key)

/-- Go map lookup's `ok` result. -/
def mapContains (m : List (List Nat × ManifestEntry)) (key : List Nat) : Bool :=
  m.any (fun p => decide (p.1 = key))

/-- `Diff` checks paths against the given path with a trailing slash
appended when absent. -/
def ensureSlash (path : List Nat) : List Nat :=
  if ([47] : List Nat).isSuffixOf path then path else path ++ [47]

/-- The loop over the manifest's entries in `Diff`: an in-path entry whose
key is in the input map marks an unchanged input (the key is deleted from
the map); an in-path entry whose key is absent is pending removal.  Returns
the final input map and the `Remove` list. -/
def diffLoop (pfx : List Nat) :
    List (List Nat × ManifestEntry) → List (List Nat) →
    List (List Nat) × List ManifestEntry
  | [], im => (im, [])
  | (h, e) :: rest, im =>
    if pfx.isPrefixOf e.Path then
      if h ∈ im then
        diffLoop pfx rest (im.filter (· ≠ h))
      else
        let r := diffLoop pfx rest im
        (r.1, e :: r.2)
    else
      diffLoop pfx rest im

/-- `Manifest.Diff(path, entries)`: build the set of incoming `LocalHash`
values, walk the manifest's entries (collecting `Remove` and striking
matched hashes), then keep as `Change` the incoming entries whose hash
survived in the input map. -/
def Manifest.Diff (k : Manifest) (path : List Nat)
    (entries : List ManifestEntry) : ManifestDiff :=
  let pfx := ensureSlash path
  let inputMap := entries.map ManifestEntry.LocalHash
  let looped := diffLoop pfx k.Entries inputMap
  { Change := entries.filter (fun e => decide (e.LocalHash ∈ looped.1))
    Remove := looped.2 }

/-- `Manifest.Commit`: assign every `Change` entry under its own `LocalHash`,
then delete every `Remove` entry's `LocalHash`. -/
def Manifest.Commit (k : Manifest) (diff : ManifestDiff) : Manifest :=
  { Entries :=
      diff.Remove.foldl (fun m e => mapErase m e.LocalHash)
        (diff.Change.foldl (fun m e => mapInsert m e.LocalHash e) k.Entries) }

/-- `Manifest.GarbageCollectable`: collect the HMACs of the candidates,
delete every HMAC still held by an entry of the manifest, and return the
candidates whose HMAC survived. -/
def Manifest.GarbageCollectable (k : Manifest)
    (entries : List ManifestEntry) : List ManifestEntry :=
  let collectable := (entries.map ManifestEntry.HMAC).filter
    (fun h => ! k.Entries.any (fun p => decide (p.2.HMAC = h)))
  entries.filter (fun e => decide (e.HMAC ∈ collectable))

/-! ## Stream lemmas -/

theorem ctrXorFrom_length (ks : Nat → Nat) (i : Nat) (l : List Nat) :
    (ctrXorFrom ks i l).length = l.length := by
  induction l generalizing i with
  | nil => rfl
  | cons b bs ih => simp [ctrXorFrom, ih]

theorem ctrXorFrom_append (ks : Nat → Nat) (i : Nat) (a b : List Nat) :
    ctrXorFrom ks i (a ++ b) = ctrXorFrom ks i a ++ ctrXorFrom ks (i + a.length) b := by
  induction a generalizing i with
  | nil => simp [ctrXorFrom]
  | cons x xs ih =>
    simp only [List.cons_append, ctrXorFrom, List.length_cons, List.append_eq]
    rw [ih]
    have hidx : i + 1 + xs.length = i + (xs.length + 1) := by omega
    rw [hidx]

theorem ctrXorFrom_involutive (ks : Nat → Nat) (i : Nat) (l : List Nat) :
    ctrXorFrom ks i (ctrXorFrom ks i l) = l := by
  induction l generalizing i with
  | nil => rfl
  | cons b bs ih =>
    simp only [ctrXorFrom, ih]
    rw [Nat.xor_assoc, Nat.xor_self, Nat.xor_zero]

theorem foldl_append_acc (l : List (List Nat)) (a : List Nat) :
    l.foldl (· ++ ·) a = a ++ l.foldl (· ++ ·) [] := by
  induction l generalizing a with
  | nil => simp
  | cons c cs ih =>
    simp only [List.foldl_cons, List.nil_append]
    rw [ih (a ++ c), ih c, List.append_assoc]

theorem joinl_cons (c : List Nat) (cs : List (List Nat)) :
    joinl (c :: cs) = c ++ joinl cs := by
  simp only [joinl, List.foldl_cons, List.nil_append]
  exact foldl_append_acc cs c

/-- Concatenating the chunks `CipherStream` emits gives the CTR transform of
the whole source: the buffer boundaries do not change the byte stream. -/
theorem joinl_cipherChunks_le (ks : Nat → Nat) :
    ∀ (n i : Nat) (src : List Nat), src.length ≤ n →
      joinl (cipherChunks ks i src) = ctrXorFrom ks i src := by
  intro n
  induction n with
  | zero =>
    intro i src h
    have hnil : src = [] := List.eq_nil_of_length_eq_zero (Nat.le_zero.mp h)
    subst hnil
    simp [cipherChunks, joinl, ctrXorFrom]
  | succ n ih =>
    intro i src h
    by_cases hs : src = []
    · subst hs; simp [cipherChunks, joinl, ctrXorFrom]
    · rw [cipherChunks, if_neg hs, joinl_cons]
      rw [ih (i + (src.take cipherStreamBufferSize).length)
            (src.drop cipherStreamBufferSize)
            (by
              simp only [List.length_drop]
              have hpos : src.length ≠ 0 := fun h0 => hs (List.eq_nil_of_length_eq_zero h0)
              simp only [cipherStreamBufferSize]
              omega)]
      rw [List.length_take]
      conv_rhs => rw [← List.take_append_drop cipherStreamBufferSize src]
      rw [ctrXorFrom_append, List.length_take]

theorem joinl_cipherChunks (ks : Nat → Nat) (i : Nat) (src : List Nat) :
    joinl (cipherChunks ks i src) = ctrXorFrom ks i src :=
  joinl_cipherChunks_le ks src.length i src (Nat.le_refl _)

/-! ## Derived key material

Both writer and reader derive `iv = shaSlice256(key)`, use its first 16
bytes for the CTR configuration, and derive the HMAC key as
`shaSlice256(iv)`.  These abbreviations name those derivations. -/

def ctrKeystream (C : Crypto) (key : List Nat) : Nat → Nat :=
  C.keystream key ((shaSlice256 C key).take 16)

def hmacKeyOf (C : Crypto) (key : List Nat) : List Nat :=
  shaSlice256 C (shaSlice256 C key)

theorem aesKeyOk_of_len32 {n : Nat} (h : n = 32) : aesKeyOk n = true := by
  subst h; rfl

/-- `Writer.Encrypt` on a 32-byte key, characterized: the output is the CTR
transform of the source's remaining bytes followed by the HMAC-SHA-512 of
that transform under the derived HMAC key. -/
theorem encrypt_eq (C : Crypto) (p key : List Nat) (pos : Nat) (h : key.length = 32) :
    Writer.Encrypt C { Source := { data := p, pos := pos }, Key := key } =
      .ok (ctrXorFrom (ctrKeystream C key) 0 (p.drop pos) ++
             C.hmacSha512 (hmacKeyOf C key) (ctrXorFrom (ctrKeystream C key) 0 (p.drop pos)),
           C.hmacSha512 (hmacKeyOf C key) (ctrXorFrom (ctrKeystream C key) 0 (p.drop pos))) := by
  unfold Writer.Encrypt
  rw [if_neg (by simp [aesKeyOk_of_len32 h])]
  simp only [joinl_cipherChunks, ctrKeystream, hmacKeyOf]

/-- `CheckKey` on a well-formed blob `ct ++ mac` whose trailer is the HMAC
of its body: success, returning the body length and the rewound source. -/
theorem checkKey_valid (C : Crypto) (ct mac key : List Nat)
    (hmac : mac = C.hmacSha512 (hmacKeyOf C key) ct) (hlen : mac.length = 64) :
    CheckKey C { data := ct ++ mac, pos := 0 } key = .ok (ct.length, { data := ct ++ mac, pos := 0 }) := by
  unfold CheckKey
  have hl : (ct ++ mac).length = ct.length + 64 := by simp [hlen]
  simp only [hl, Nat.add_sub_cancel]
  rw [if_neg (by omega)]
  rw [List.drop_left, List.take_left]
  rw [show mac.take 64 = mac by rw [← hlen, List.take_length]]
  rw [if_pos (by rw [hmac]; rfl)]

/-- `Reader.Decrypt` on a 32-byte key is the CTR transform of the reader's
source. -/
theorem decrypt_eq (C : Crypto) (src key : List Nat) (h : key.length = 32) :
    Reader.Decrypt C { Source := src, Key := key } =
      .ok (ctrXorFrom (ctrKeystream C key) 0 src) := by
  unfold Reader.Decrypt
  rw [if_neg (by simp [aesKeyOk_of_len32 h])]
  simp only [joinl_cipherChunks, ctrKeystream]

/-- Claim C1: for every byte string `p` and convergence secret `cs`, with
`k = SHA-256(cs ++ p)`: `Writer.Encrypt` under `k` produces a blob on which
`CheckKey` succeeds (returning the body offset `|p|`), `NewReader`
construction succeeds, and `Reader.Decrypt` yields exactly `p`. -/
theorem round_trip_encrypt_decrypt (C : Crypto) (p cs : List Nat) :
    ∃ w blob mac r,
      NewWriter { data := p, pos := 0 } (C.sha256 (cs ++ p)) = .ok w ∧
      Writer.Encrypt C w = .ok (blob, mac) ∧
      CheckKey C { data := blob, pos := 0 } (C.sha256 (cs ++ p)) =
        .ok (p.length, { data := blob, pos := 0 }) ∧
      NewReader C { data := blob, pos := 0 } (C.sha256 (cs ++ p)) = .ok r ∧
      Reader.Decrypt C r = .ok p := by
  have hk : (C.sha256 (cs ++ p)).length = 32 := C.sha256_len _
  set k := C.sha256 (cs ++ p) with hkdef
  set ct := ctrXorFrom (ctrKeystream C k) 0 p with hct
  set mac := C.hmacSha512 (hmacKeyOf C k) ct with hmac
  have hctlen : ct.length = p.length := ctrXorFrom_length _ _ _
  have hmaclen : mac.length = 64 := C.hmac_len _ _
  refine ⟨{ Source := { data := p, pos := 0 }, Key := k }, ct ++ mac, mac,
    { Source := ct, Key := k }, ?_, ?_, ?_, ?_, ?_⟩
  · unfold NewWriter
    rw [if_neg (by omega)]
  · have := encrypt_eq C p k 0 hk
    simpa using this
  · have := checkKey_valid C ct mac k hmac hmaclen
    rw [hctlen] at this
    exact this
  · unfold NewReader
    rw [checkKey_valid C ct mac k hmac hmaclen]
    simp only [List.drop_zero, List.take_left]
  · rw [decrypt_eq C ct k hk, hct, ctrXorFrom_involutive]

/-- Claim C2: for every plaintext `p` and 32-byte key, `Writer.Encrypt`
outputs the CTR transform of `p` under the keystream derived from the key
and the first 16 bytes of SHA-256(key), followed by the 64-byte
HMAC-SHA-512 trailer keyed by SHA-256(SHA-256(key)) over the ciphertext;
the output length is `|p| + 64` and the returned HMAC equals the trailer. -/
theorem encrypt_format (C : Crypto) (p key : List Nat) (h : key.length = 32) :
    ∃ ct mac,
      ct = ctrXorFrom (C.keystream key ((C.sha256 key).take 16)) 0 p ∧
      mac = C.hmacSha512 (C.sha256 (C.sha256 key)) ct ∧
      Writer.Encrypt C { Source := { data := p, pos := 0 }, Key := key } =
        .ok (ct ++ mac, mac) ∧
      (ct ++ mac).length = p.length + 64 ∧
      (ct ++ mac).drop p.length = mac := by
  refine ⟨ctrXorFrom (ctrKeystream C key) 0 p,
    C.hmacSha512 (hmacKeyOf C key) (ctrXorFrom (ctrKeystream C key) 0 p),
    rfl, rfl, ?_, ?_, ?_⟩
  · have := encrypt_eq C p key 0 h
    simpa using this
  · simp [ctrXorFrom_length, C.hmac_len]
  · rw [show p.length = (ctrXorFrom (ctrKeystream C key) 0 p).length from
      (ctrXorFrom_length _ _ _).symm]
    exact List.drop_left _ _

/-- Witness for C2 at a concrete input. -/
theorem encrypt_format_witness :
    (List.replicate 32 0 : List Nat).length = 32 ∧
    (∃ ct mac,
      ct = ctrXorFrom (toyCrypto.keystream (List.replicate 32 0)
        ((toyCrypto.sha256 (List.replicate 32 0)).take 16)) 0 [1, 2, 3] ∧
      mac = toyCrypto.hmacSha512 (toyCrypto.sha256 (toyCrypto.sha256 (List.replicate 32 0))) ct ∧
      Writer.Encrypt toyCrypto
          { Source := { data := [1, 2, 3], pos := 0 }, Key := List.replicate 32 0 } =
        .ok (ct ++ mac, mac) ∧
      (ct ++ mac).length = [1, 2, 3].length + 64 ∧
      (ct ++ mac).drop [1, 2, 3].length = mac) :=
  ⟨by simp, encrypt_format toyCrypto [1, 2, 3] (List.replicate 32 0) (by simp)⟩

/-- Claim C8: `NewWriter` succeeds exactly on 32-byte keys, returning a
writer holding the given source and key; otherwise it fails with the
key-size error. -/
theorem new_writer_key_size (source : ByteSource) (key : List Nat) :
    (NewWriter source key = .ok { Source := source, Key := key } ↔ key.length = 32) ∧
    (key.length ≠ 32 → NewWriter source key = .error "Key size is incorrect") := by
  constructor
  · constructor
    · intro h
      by_contra hne
      rw [NewWriter, if_pos hne] at h
      exact Except.noConfusion h
    · intro h
      rw [NewWriter, if_neg (by omega)]
  · intro h
    rw [NewWriter, if_pos h]

/-- Claim C3 (amended): when the final 64 bytes of a (≥ 64 byte) ciphertext
differ from the HMAC-SHA-512 of the preceding bytes under
SHA-256(SHA-256(key)), `CheckKey` fails — and `NewReader` fails with the
same error, producing no reader — but the error is
`File signature invalid (HMAC)`, not the `HMACInvalid` constant. -/
theorem checkKey_mismatch_error (C : Crypto) (blob key : List Nat)
    (hlen : 64 ≤ blob.length)
    (hmis : blob.drop (blob.length - 64) ≠
      C.hmacSha512 (hmacKeyOf C key) (blob.take (blob.length - 64))) :
    CheckKey C { data := blob, pos := 0 } key = .error "File signature invalid (HMAC)" ∧
    NewReader C { data := blob, pos := 0 } key = .error "File signature invalid (HMAC)" := by
  have hck : CheckKey C { data := blob, pos := 0 } key = .error "File signature invalid (HMAC)" := by
    simp only [hmacKeyOf, shaSlice256] at hmis
    simp only [CheckKey, shaSlice256]
    rw [if_neg (by omega)]
    have hdroplen : (blob.drop (blob.length - 64)).length ≤ 64 := by
      simp only [List.length_drop]
      omega
    rw [List.take_of_length_le hdroplen]
    rw [if_neg (Ne.symm hmis)]
  exact ⟨hck, by unfold NewReader; rw [hck]⟩

/-- Witness for the amended C3 at a concrete input. -/
theorem checkKey_mismatch_error_witness :
    (64 ≤ (List.replicate 64 (0 : Nat)).length) ∧
    ((List.replicate 64 (0 : Nat)).drop ((List.replicate 64 (0 : Nat)).length - 64) ≠
      toyCrypto.hmacSha512 (hmacKeyOf toyCrypto [])
        ((List.replicate 64 (0 : Nat)).take ((List.replicate 64 (0 : Nat)).length - 64))) ∧
    (CheckKey toyCrypto { data := List.replicate 64 0, pos := 0 } [] =
        .error "File signature invalid (HMAC)" ∧
      NewReader toyCrypto { data := List.replicate 64 0, pos := 0 } [] =
        .error "File signature invalid (HMAC)") :=
  ⟨by decide, by decide,
    checkKey_mismatch_error toyCrypto (List.replicate 64 0) [] (by decide) (by decide)⟩

/-- Counterexample to C3 as stated: a concrete all-zero 64-byte blob whose
trailer does not match the computed HMAC; `CheckKey` fails, but with the
error string `File signature invalid (HMAC)`, which is not `HMAC Invalid`
(the `HMACInvalid` constant of errors.go). -/
theorem checkKey_error_string_counterexample :
    ((List.replicate 64 (0 : Nat)).drop ((List.replicate 64 (0 : Nat)).length - 64) ≠
      toyCrypto.hmacSha512 (hmacKeyOf toyCrypto [])
        ((List.replicate 64 (0 : Nat)).take ((List.replicate 64 (0 : Nat)).length - 64))) ∧
    CheckKey toyCrypto { data := List.replicate 64 0, pos := 0 } [] =
      .error "File signature invalid (HMAC)" ∧
    ("File signature invalid (HMAC)" : String) ≠ "HMAC Invalid" :=
  ⟨by decide, by rfl, by decide⟩

/-- Claim C4: on a 32-byte key, when the HMAC over all but the final 64
bytes differs from those withheld final bytes, `DecryptAndCheckKey` returns
the `HMAC Invalid` error and no plaintext (the `Except.error` result carries
no ok-payload, modelling the nil reader and the erased buffer). -/
theorem decrypt_and_check_mismatch (C : Crypto) (input key : List Nat)
    (hk : key.length = 32)
    (hmis : input.drop (input.length - 64) ≠
      C.hmacSha512 (hmacKeyOf C key) (input.take (input.length - 64))) :
    DecryptAndCheckKey C input key = .error "HMAC Invalid" := by
  have hdec := decrypt_eq C (input.take (input.length - 64)) key hk
  simp only [hmacKeyOf, shaSlice256] at hmis
  simp only [DecryptAndCheckKey, HMACSize, hdec, shaSlice256]
  rw [if_neg hmis]

/-- Witness for C4 at a concrete input. -/
theorem decrypt_and_check_mismatch_witness :
    ((List.replicate 32 (0 : Nat)).length = 32) ∧
    ((List.replicate 100 (7 : Nat)).drop ((List.replicate 100 (7 : Nat)).length - 64) ≠
      toyCrypto.hmacSha512 (hmacKeyOf toyCrypto (List.replicate 32 0))
        ((List.replicate 100 (7 : Nat)).take ((List.replicate 100 (7 : Nat)).length - 64))) ∧
    DecryptAndCheckKey toyCrypto (List.replicate 100 7) (List.replicate 32 0) =
      .error "HMAC Invalid" :=
  ⟨by decide, by decide,
    decrypt_and_check_mismatch toyCrypto (List.replicate 100 7) (List.replicate 32 0)
      (by decide) (by decide)⟩

/-- Claim C5: `ComputeKey` on a source positioned at offset 0 returns the
32-byte value SHA-256(cs ++ contents) and repositions the source at 0. -/
theorem compute_key_eq (C : Crypto) (src : ByteSource) (cs : List Nat)
    (h : src.pos = 0) :
    (ComputeKey C src cs).1 = C.sha256 (cs ++ src.data) ∧
    (ComputeKey C src cs).1.length = 32 ∧
    (ComputeKey C src cs).2 = { data := src.data, pos := 0 } := by
  unfold ComputeKey
  simp [h, C.sha256_len]

/-- Witness for C5 at a concrete input. -/
theorem compute_key_eq_witness :
    (ByteSource.mk [9, 8] 0).pos = 0 ∧
    ((ComputeKey toyCrypto (ByteSource.mk [9, 8] 0) [1]).1 =
        toyCrypto.sha256 ([1] ++ [9, 8]) ∧
      (ComputeKey toyCrypto (ByteSource.mk [9, 8] 0) [1]).1.length = 32 ∧
      (ComputeKey toyCrypto (ByteSource.mk [9, 8] 0) [1]).2 =
        { data := [9, 8], pos := 0 }) :=
  ⟨rfl, compute_key_eq toyCrypto (ByteSource.mk [9, 8] 0) [1] rfl⟩

/-- Claim C10: on a 32-byte key, every input shorter than 64 bytes makes
`DecryptAndCheckKey` fail with `HMAC Invalid`: the withheld tail is the
whole input, shorter than the 64-byte computed HMAC. -/
theorem decrypt_and_check_short_input (C : Crypto) (input key : List Nat)
    (hshort : input.length < 64) (hk : key.length = 32) :
    DecryptAndCheckKey C input key = .error "HMAC Invalid" := by
  have hdec := decrypt_eq C (input.take (input.length - 64)) key hk
  have hne : input.drop (input.length - 64) ≠
      C.hmacSha512 (C.sha256 (C.sha256 key)) (input.take (input.length - 64)) := by
    intro heq
    have hlen := congrArg List.length heq
    simp only [List.length_drop, C.hmac_len] at hlen
    omega
  simp only [DecryptAndCheckKey, HMACSize, hdec, shaSlice256]
  rw [if_neg hne]

/-- Witness for C10 at a concrete input. -/
theorem decrypt_and_check_short_input_witness :
    (([] : List Nat).length < 64) ∧ ((List.replicate 32 (0 : Nat)).length = 32) ∧
    DecryptAndCheckKey toyCrypto [] (List.replicate 32 0) = .error "HMAC Invalid" :=
  ⟨by decide, by decide,
    decrypt_and_check_short_input toyCrypto [] (List.replicate 32 0) (by decide) (by decide)⟩

/-! ## Manifest lemmas -/

/-- The input map after `Diff`'s manifest loop: a hash survives exactly when
it was present and no in-path manifest entry carries it as its key. -/
theorem diffLoop_fst_mem (pfx : List Nat) (m : List (List Nat × ManifestEntry))
    (im : List (List Nat)) (x : List Nat) :
    x ∈ (diffLoop pfx m im).1 ↔
      x ∈ im ∧ ∀ p ∈ m, pfx.isPrefixOf p.2.Path = true → p.1 ≠ x := by
  induction m generalizing im with
  | nil => simp [diffLoop]
  | cons he rest ih =>
    obtain ⟨h, e⟩ := he
    simp only [diffLoop]
    by_cases hp : pfx.isPrefixOf e.Path
    · rw [if_pos hp]
      by_cases hin : h ∈ im
      · rw [if_pos hin, ih]
        simp only [List.mem_filter, decide_eq_true_eq, List.mem_cons, hp]
        constructor
        · rintro ⟨⟨hxim, hxh⟩, hrest⟩
          refine ⟨hxim, ?_⟩
          rintro p (rfl | hpm)
          · exact fun _ => Ne.symm hxh
          · exact hrest p hpm
        · rintro ⟨hxim, hall⟩
          refine ⟨⟨hxim, ?_⟩, fun p hpm => hall p (Or.inr hpm)⟩
          exact Ne.symm (hall (h, e) (Or.inl rfl) (by simpa using hp))
      · rw [if_neg hin, ih]
        simp only [List.mem_cons]
        constructor
        · rintro ⟨hxim, hrest⟩
          refine ⟨hxim, ?_⟩
          rintro p (rfl | hpm)
          · intro _ heq
            rw [← heq] at hxim
            exact hin hxim
          · exact hrest p hpm
        · rintro ⟨hxim, hall⟩
          exact ⟨hxim, fun p hpm => hall p (Or.inr hpm)⟩
    · rw [if_neg hp, ih]
      simp only [List.mem_cons]
      constructor
      · rintro ⟨hxim, hrest⟩
        refine ⟨hxim, ?_⟩
        rintro p (rfl | hpm)
        · intro hpfx
          exact absurd hpfx (by simpa using hp)
        · exact hrest p hpm
      · rintro ⟨hxim, hall⟩
        exact ⟨hxim, fun p hpm => hall p (Or.inr hpm)⟩

/-- The `Remove` list of `Diff`'s manifest loop, for a manifest whose map
keys are the entries' own hashes and are distinct: an entry is pending
removal exactly when it is an in-path manifest entry whose hash is not in
the input map. -/
theorem diffLoop_snd_mem (pfx : List Nat) (m : List (List Nat × ManifestEntry))
    (im : List (List Nat))
    (hkeys : ∀ p ∈ m, p.1 = p.2.LocalHash)
    (hnd : (m.map Prod.fst).Nodup) (e' : ManifestEntry) :
    e' ∈ (diffLoop pfx m im).2 ↔
      (e'.LocalHash, e') ∈ m ∧ pfx.isPrefixOf e'.Path = true ∧ e'.LocalHash ∉ im := by
  induction m generalizing im with
  | nil => simp [diffLoop]
  | cons he rest ih =>
    obtain ⟨h, e⟩ := he
    have hkey : h = e.LocalHash := hkeys (h, e) (List.mem_cons_self _ _)
    have hkeys' : ∀ p ∈ rest, p.1 = p.2.LocalHash :=
      fun p hp => hkeys p (List.mem_cons_of_mem _ hp)
    have hnd2 := hnd
    rw [List.map_cons, List.nodup_cons] at hnd2
    obtain ⟨hnotin, hnd'⟩ := hnd2
    simp only [diffLoop]
    by_cases hp : pfx.isPrefixOf e.Path
    · rw [if_pos hp]
      by_cases hin : h ∈ im
      · rw [if_pos hin, ih _ hkeys' hnd']
        simp only [List.mem_cons, List.mem_filter, decide_eq_true_eq]
        constructor
        · rintro ⟨hmem, hpfx, hnotim⟩
          refine ⟨Or.inr hmem, hpfx, ?_⟩
          intro hxim
          have hxne : e'.LocalHash ≠ h := by
            intro heq
            apply hnotin
            rw [← heq]
            exact List.mem_map.mpr ⟨(e'.LocalHash, e'), hmem, rfl⟩
          exact hnotim ⟨hxim, hxne⟩
        · rintro ⟨hor, hpfx, hnotim⟩
          cases hor with
          | inl heq =>
            exfalso
            have hh : e'.LocalHash = h := congrArg Prod.fst heq
            exact hnotim (hh ▸ hin)
          | inr hmem =>
            exact ⟨hmem, hpfx, fun hmemf => hnotim hmemf.1⟩
      · rw [if_neg hin]
        simp only [List.mem_cons]
        rw [ih _ hkeys' hnd']
        constructor
        · rintro (rfl | ⟨hmem, hpfx', hnotim⟩)
          · exact ⟨Or.inl (by rw [hkey]), hp, by rw [← hkey]; exact hin⟩
          · exact ⟨Or.inr hmem, hpfx', hnotim⟩
        · rintro ⟨hor, hpfx', hnotim⟩
          cases hor with
          | inl heq =>
            left
            exact (Prod.mk.injEq _ _ _ _).mp heq |>.2
          | inr hmem =>
            exact Or.inr ⟨hmem, hpfx', hnotim⟩
    · rw [if_neg hp, ih _ hkeys' hnd']
      simp only [List.mem_cons]
      constructor
      · rintro ⟨hmem, hpfx', hnotim⟩
        exact ⟨Or.inr hmem, hpfx', hnotim⟩
      · rintro ⟨hor, hpfx', hnotim⟩
        cases hor with
        | inl heq =>
          exfalso
          have he' : e' = e := (Prod.mk.injEq _ _ _ _).mp heq |>.2
          rw [he'] at hpfx'
          exact hp (by simpa using hpfx')
        | inr hmem =>
          exact ⟨hmem, hpfx', hnotim⟩

/-- Claim C6 (amended): on a well-formed manifest, `Diff` returns as
`Remove` exactly the manifest entries whose path starts with the (slash-
terminated) path and whose fingerprint is no input fingerprint, and as
`Change` exactly the input entries whose fingerprint is not the key of any
IN-PATH manifest entry — an input matching an out-of-path manifest entry is
still a `Change`, contrary to the claim as stated. -/
theorem diff_characterization (k : Manifest) (path : List Nat)
    (E : List ManifestEntry)
    (hkeys : ∀ p ∈ k.Entries, p.1 = p.2.LocalHash)
    (hnd : (k.Entries.map Prod.fst).Nodup) :
    (∀ e, e ∈ (k.Diff path E).Remove ↔
        (e.LocalHash, e) ∈ k.Entries ∧
        (ensureSlash path).isPrefixOf e.Path = true ∧
        e.LocalHash ∉ E.map ManifestEntry.LocalHash) ∧
    (∀ e, e ∈ (k.Diff path E).Change ↔
        e ∈ E ∧
        ∀ p ∈ k.Entries, (ensureSlash path).isPrefixOf p.2.Path = true →
          p.1 ≠ e.LocalHash) := by
  constructor
  · intro e
    simp only [Manifest.Diff]
    exact diffLoop_snd_mem (ensureSlash path) k.Entries
      (E.map ManifestEntry.LocalHash) hkeys hnd e
  · intro e
    simp only [Manifest.Diff, List.mem_filter, decide_eq_true_eq]
    rw [diffLoop_fst_mem]
    constructor
    · rintro ⟨hE, _, hall⟩
      exact ⟨hE, hall⟩
    · rintro ⟨hE, hall⟩
      exact ⟨hE, List.mem_map_of_mem ManifestEntry.LocalHash hE, hall⟩

/-- Concrete manifest data for evaluating `Diff`. -/
def ceOld : ManifestEntry :=
  { LocalHash := [1], Path := [111, 47, 120], Key := [], HMAC := [2] }

/-- Concrete input entry for evaluating `Diff`: same fingerprint as `ceOld`,
but `ceOld` lies outside the diffed path. -/
def ceNew : ManifestEntry :=
  { LocalHash := [1], Path := [114, 47, 97], Key := [], HMAC := [3] }

def ceManifest : Manifest := { Entries := [([1], ceOld)] }

/-- Witness for the amended C6 at a concrete input. -/
theorem diff_characterization_witness :
    (∀ p ∈ ceManifest.Entries, p.1 = p.2.LocalHash) ∧
    ((ceManifest.Entries.map Prod.fst).Nodup) ∧
    ((∀ e, e ∈ (ceManifest.Diff [114] [ceNew]).Remove ↔
        (e.LocalHash, e) ∈ ceManifest.Entries ∧
        (ensureSlash [114]).isPrefixOf e.Path = true ∧
        e.LocalHash ∉ [ceNew].map ManifestEntry.LocalHash) ∧
      (∀ e, e ∈ (ceManifest.Diff [114] [ceNew]).Change ↔
        e ∈ [ceNew] ∧
        ∀ p ∈ ceManifest.Entries, (ensureSlash [114]).isPrefixOf p.2.Path = true →
          p.1 ≠ e.LocalHash)) :=
  ⟨by decide, by decide,
    diff_characterization ceManifest [114] [ceNew] (by decide) (by decide)⟩

/-- Counterexample to C6 as stated: `ceNew`'s fingerprint equals the
fingerprint of an existing manifest entry (`ceOld`), yet `Diff` returns it
as a `Change`, because the matching entry lies outside the diffed path. -/
theorem diff_change_counterexample :
    (∃ p ∈ ceManifest.Entries, p.2.LocalHash = ceNew.LocalHash) ∧
    ceNew ∈ (ceManifest.Diff [114] [ceNew]).Change := by
  decide

/-- Claim C7: `GarbageCollectable` returns exactly the candidates whose HMAC
is held by no entry currently retained in the manifest. -/
theorem gc_characterization (k : Manifest) (cands : List ManifestEntry)
    (e : ManifestEntry) :
    e ∈ k.GarbageCollectable cands ↔
      e ∈ cands ∧ ∀ p ∈ k.Entries, p.2.HMAC ≠ e.HMAC := by
  simp only [Manifest.GarbageCollectable, List.mem_filter, decide_eq_true_eq,
    List.mem_map, Bool.not_eq_true', List.any_eq_false, decide_eq_false_iff_not]
  constructor
  · rintro ⟨hc, hmem⟩
    obtain ⟨-, hall⟩ := hmem
    exact ⟨hc, fun p hp => hall p hp⟩
  · rintro ⟨hc, hall⟩
    exact ⟨hc, ⟨⟨e, hc, rfl⟩, fun p hp => hall p hp⟩⟩

/-! ## Map-operation lemmas for `Commit` -/

theorem mapContains_iff (m : List (List Nat × ManifestEntry)) (x : List Nat) :
    mapContains m x = true ↔ ∃ p ∈ m, p.1 = x := by
  simp [mapContains, List.any_eq_true]

theorem mapInsert_contains (m : List (List Nat × ManifestEntry))
    (key : List Nat) (v : ManifestEntry) (x : List Nat) :
    mapContains (mapInsert m key v) x = true ↔
      x = key ∨ mapContains m x = true := by
  simp only [mapContains_iff, mapInsert, List.mem_append, List.mem_filter,
    List.mem_singleton, decide_eq_true_eq]
  constructor
  · rintro ⟨p, (⟨hpm, -⟩ | rfl), hpx⟩
    · exact Or.inr ⟨p, hpm, hpx⟩
    · exact Or.inl hpx.symm
  · rintro (rfl | ⟨p, hpm, hpx⟩)
    · exact ⟨(x, v), Or.inr rfl, rfl⟩
    · by_cases hxk : x = key
      · exact ⟨(key, v), Or.inr rfl, hxk.symm⟩
      · exact ⟨p, Or.inl ⟨hpm, by rw [hpx]; exact hxk⟩, hpx⟩

theorem mapErase_contains (m : List (List Nat × ManifestEntry))
    (key x : List Nat) :
    mapContains (mapErase m key) x = true ↔
      mapContains m x = true ∧ x ≠ key := by
  simp only [mapContains_iff, mapErase, List.mem_filter, decide_eq_true_eq]
  constructor
  · rintro ⟨p, ⟨hpm, hpk⟩, hpx⟩
    exact ⟨⟨p, hpm, hpx⟩, by rw [← hpx]; exact hpk⟩
  · rintro ⟨⟨p, hpm, hpx⟩, hxk⟩
    exact ⟨p, ⟨hpm, by rw [hpx]; exact hxk⟩, hpx⟩

theorem foldl_insert_mono (l : List ManifestEntry)
    (m : List (List Nat × ManifestEntry)) (x : List Nat)
    (h : mapContains m x = true) :
    mapContains (l.foldl (fun acc e => mapInsert acc e.LocalHash e) m) x = true := by
  induction l generalizing m with
  | nil => exact h
  | cons e rest ih =>
    exact ih _ ((mapInsert_contains _ _ _ _).mpr (Or.inr h))

theorem foldl_insert_of_mem (l : List ManifestEntry)
    (m : List (List Nat × ManifestEntry)) (x : List Nat)
    (h : ∃ e ∈ l, e.LocalHash = x) :
    mapContains (l.foldl (fun acc e => mapInsert acc e.LocalHash e) m) x = true := by
  induction l generalizing m with
  | nil => simp at h
  | cons e rest ih =>
    obtain ⟨e0, he0, hx⟩ := h
    rw [List.mem_cons] at he0
    cases he0 with
    | inl heq =>
      rw [List.foldl_cons]
      apply foldl_insert_mono
      apply (mapInsert_contains _ _ _ _).mpr
      exact Or.inl (by rw [← hx, heq])
    | inr hmem =>
      rw [List.foldl_cons]
      exact ih _ ⟨e0, hmem, hx⟩

theorem foldl_erase_contains (l : List ManifestEntry)
    (m : List (List Nat × ManifestEntry)) (x : List Nat)
    (hne : ∀ e ∈ l, e.LocalHash ≠ x)
    (h : mapContains m x = true) :
    mapContains (l.foldl (fun acc e => mapErase acc e.LocalHash) m) x = true := by
  induction l generalizing m with
  | nil => exact h
  | cons e rest ih =>
    apply ih _ (fun e' he' => hne e' (List.mem_cons_of_mem _ he'))
    apply (mapErase_contains _ _ _).mpr
    exact ⟨h, fun hx => hne e (List.mem_cons_self _ _) hx.symm⟩

/-- Well-formedness of the manifest map: every key is its entry's own
`LocalHash`, and keys are distinct. -/
def MapWF (m : List (List Nat × ManifestEntry)) : Prop :=
  (∀ p ∈ m, p.1 = p.2.LocalHash) ∧ (m.map Prod.fst).Nodup

theorem mapErase_wf (m : List (List Nat × ManifestEntry)) (key : List Nat)
    (h : MapWF m) : MapWF (mapErase m key) := by
  obtain ⟨hkeys, hnd⟩ := h
  constructor
  · intro p hp
    exact hkeys p (List.mem_filter.mp hp).1
  · exact List.Nodup.sublist (List.Sublist.map _ (List.filter_sublist m)) hnd

theorem mapInsert_wf (m : List (List Nat × ManifestEntry)) (v : ManifestEntry)
    (h : MapWF m) : MapWF (mapInsert m v.LocalHash v) := by
  obtain ⟨hkeys, hnd⟩ := h
  constructor
  · intro p hp
    rw [mapInsert, List.mem_append] at hp
    cases hp with
    | inl hpf => exact hkeys p (List.mem_filter.mp hpf).1
    | inr hps => rw [List.mem_singleton.mp hps]
  · rw [mapInsert, List.map_append, List.nodup_append]
    refine ⟨List.Nodup.sublist (List.Sublist.map _ (List.filter_sublist m)) hnd,
      List.nodup_singleton _, ?_⟩
    intro x hx hxs
    rw [List.map_singleton, List.mem_singleton] at hxs
    obtain ⟨p, hpf, hpx⟩ := List.mem_map.mp hx
    have := (List.mem_filter.mp hpf).2
    rw [decide_eq_true_eq] at this
    exact this (by rw [hpx, hxs])

theorem foldl_insert_wf (l : List ManifestEntry)
    (m : List (List Nat × ManifestEntry)) (h : MapWF m) :
    MapWF (l.foldl (fun acc e => mapInsert acc e.LocalHash e) m) := by
  induction l generalizing m with
  | nil => exact h
  | cons e rest ih => exact ih _ (mapInsert_wf m e h)

theorem foldl_erase_wf (l : List ManifestEntry)
    (m : List (List Nat × ManifestEntry)) (h : MapWF m) :
    MapWF (l.foldl (fun acc e => mapErase acc e.LocalHash) m) := by
  induction l generalizing m with
  | nil => exact h
  | cons e rest ih => exact ih _ (mapErase_wf m e.LocalHash h)

theorem commit_wf (k : Manifest) (d : ManifestDiff) (h : MapWF k.Entries) :
    MapWF (k.Commit d).Entries :=
  foldl_erase_wf d.Remove _ (foldl_insert_wf d.Change k.Entries h)

/-- Claim C9: on a well-formed manifest, the `Change` and `Remove` lists of
a `Diff` share no fingerprint; hence `Commit` — which inserts the `Change`
entries and then deletes the `Remove` fingerprints — retains every entry it
just inserted; and `Commit` preserves the invariant that every map key is
its entry's own `LocalHash` (with keys distinct). -/
theorem diff_commit_consistency (k : Manifest) (path : List Nat)
    (E : List ManifestEntry) (d' : ManifestDiff)
    (hkeys : ∀ p ∈ k.Entries, p.1 = p.2.LocalHash)
    (hnd : (k.Entries.map Prod.fst).Nodup) :
    (∀ x, x ∈ (k.Diff path E).Change.map ManifestEntry.LocalHash →
        x ∉ (k.Diff path E).Remove.map ManifestEntry.LocalHash) ∧
    (∀ e ∈ (k.Diff path E).Change,
        mapContains (k.Commit (k.Diff path E)).Entries e.LocalHash = true) ∧
    MapWF (k.Commit d').Entries := by
  have hch : ∀ e ∈ (k.Diff path E).Change,
      ∀ p ∈ k.Entries, (ensureSlash path).isPrefixOf p.2.Path = true →
        p.1 ≠ e.LocalHash := by
    intro e he
    simp only [Manifest.Diff, List.mem_filter, decide_eq_true_eq] at he
    exact ((diffLoop_fst_mem _ _ _ _).mp he.2).2
  have hrm : ∀ e ∈ (k.Diff path E).Remove,
      (e.LocalHash, e) ∈ k.Entries ∧
      (ensureSlash path).isPrefixOf e.Path = true := by
    intro e he
    simp only [Manifest.Diff] at he
    have := (diffLoop_snd_mem (ensureSlash path) k.Entries
      (E.map ManifestEntry.LocalHash) hkeys hnd e).mp he
    exact ⟨this.1, this.2.1⟩
  have hdisj : ∀ x, x ∈ (k.Diff path E).Change.map ManifestEntry.LocalHash →
      x ∉ (k.Diff path E).Remove.map ManifestEntry.LocalHash := by
    intro x hxc hxr
    obtain ⟨ec, hec, rfl⟩ := List.mem_map.mp hxc
    obtain ⟨er, her, heq⟩ := List.mem_map.mp hxr
    obtain ⟨hmem, hpfx⟩ := hrm er her
    exact hch ec hec (er.LocalHash, er) hmem hpfx heq
  refine ⟨hdisj, ?_, commit_wf k d' ⟨hkeys, hnd⟩⟩
  intro e he
  unfold Manifest.Commit
  apply foldl_erase_contains
  · intro er her hx
    exact hdisj e.LocalHash (List.mem_map_of_mem _ he)
      (List.mem_map.mpr ⟨er, her, hx⟩)
  · exact foldl_insert_of_mem _ _ _ ⟨e, he, rfl⟩

/-- Concrete manifest data for evaluating `Commit`. -/
def entryA : ManifestEntry :=
  { LocalHash := [5], Path := [114, 47, 98], Key := [], HMAC := [6] }

def entryB : ManifestEntry :=
  { LocalHash := [7], Path := [114, 47, 99], Key := [], HMAC := [8] }

def manifest9 : Manifest := { Entries := [([5], entryA)] }

/-- Witness for C9 at a concrete input. -/
theorem diff_commit_consistency_witness :
    (∀ p ∈ manifest9.Entries, p.1 = p.2.LocalHash) ∧
    ((manifest9.Entries.map Prod.fst).Nodup) ∧
    ((∀ x, x ∈ (manifest9.Diff [114] [entryB]).Change.map ManifestEntry.LocalHash →
        x ∉ (manifest9.Diff [114] [entryB]).Remove.map ManifestEntry.LocalHash) ∧
      (∀ e ∈ (manifest9.Diff [114] [entryB]).Change,
        mapContains (manifest9.Commit (manifest9.Diff [114] [entryB])).Entries
          e.LocalHash = true) ∧
      MapWF (manifest9.Commit { Change := [entryB], Remove := [entryA] }).Entries) :=
  ⟨by decide, by decide,
    diff_commit_consistency manifest9 [114] [entryB]
      { Change := [entryB], Remove := [entryA] } (by decide) (by decide)⟩

end Blobcrypt
